import Mathlib

/-!
Shallow embedding of the trial-substitution engine of `fix_unfinished_exp.py`
(fuzzbench-helper).  CSV rows are modelled with their four required columns
already parsed to their types (`trial_id`, `time` as integers) plus the
remaining columns as an opaque association list; Python dictionaries are
modelled as insertion-ordered association lists; Python's stable `list.sort`
is modelled by a stable insertion sort (any stable sort produces the same
output); fatal `SystemExit` errors become `Except` errors.
-/

/-- One CSV row of a primary experiment dataset: the four required columns
typed, all other columns carried verbatim as an association list. -/
structure Row where
  trial_id : Int
  time : Int
  fuzzer : String
  benchmark : String
  extra : List (String × String)
deriving DecidableEq, Repr

/-- Errors raised (as `SystemExit`) by the candidate selector.  The spec names
them NoCandidateError and AmbiguousCandidateError. -/
inductive SubError where
  | noCandidateError : SubError
  | ambiguousCandidateError : SubError
deriving DecidableEq, Repr

/-- `d.setdefault(tid, []).append(r)`: append `r` to the group of key `tid`,
creating the group at the end when absent (Python dicts preserve insertion
order of keys). -/
def insertGroup (m : List (Int × List Row)) (tid : Int) (r : Row) :
    List (Int × List Row) :=
  match m with
  | [] => [(tid, [r])]
  | (k, rs) :: rest =>
      if k = tid then (k, rs ++ [r]) :: rest else (k, rs) :: insertGroup rest tid r

/-- `group_by_trial` of the source: group rows by their `trial_id`, keys in
first-appearance order, rows of one trial in original order. -/
def group_by_trial (rows : List Row) : List (Int × List Row) :=
  rows.foldl (fun m r => insertGroup m r.trial_id r) []

/-- `max_time_for_trial`: maximum `time` over the trial's rows, `-1` for an
empty row list. -/
def max_time_for_trial (trial_rows : List Row) : Int :=
  trial_rows.foldl (fun mt r => if r.time > mt then r.time else mt) (-1)

/-- Number of occurrences of `v` in `l`, as `Counter` counts it. -/
def countVal (l : List String) (v : String) : Nat :=
  (l.filter (fun x => x = v)).length

/-- One step of the frequency-argmax fold of `_mode`: the current best is
replaced only on a strictly larger count, so the first-encountered value of
maximal count is kept, which is what `Counter.most_common` returns. -/
def modeStep (vs : List String) (best : Option String) (v : String) :
    Option String :=
  match best with
  | none => some v
  | some b => if countVal vs b < countVal vs v then some v else some b

/-- The truthiness test `if v` Python applies to the column values: a string
is kept when non-empty. -/
def nonEmptyStr (v : String) : Bool :=
  ¬ (v = "")

/-- `_mode` of the source: drop empty strings, then return the most frequent
remaining value, first-encountered winning ties (the behaviour of
`Counter(values).most_common(1)`), or `""` when nothing remains. -/
def _mode (values : List String) : String :=
  let vs := values.filter nonEmptyStr
  (vs.foldl (modeStep vs) none).getD ""

/-- `fuzzer_bench_for_trial`: column-wise majority vote. -/
def fuzzer_bench_for_trial (trial_rows : List Row) : String × String :=
  (_mode (trial_rows.map Row.fuzzer), _mode (trial_rows.map Row.benchmark))

/-- Stable insertion of `x` into a `le`-sorted list: `x` goes after every
element `y` with `le y x` (so after equals: stability). -/
def insSorted (le : α → α → Bool) (x : α) : List α → List α
  | [] => [x]
  | y :: ys => if le y x then y :: insSorted le x ys else x :: y :: ys

/-- Model of Python's stable `sorted` / `list.sort`: any stable sort has the
same output, here realised as left-to-right stable insertion. -/
def stableSort (le : α → α → Bool) (l : List α) : List α :=
  l.foldl (fun acc x => insSorted le x acc) []

/-- `list_unfinished_trials`: every trial with max time below the threshold,
as `(trial_id, fuzzer, benchmark, max_time)`, sorted ascending by trial id. -/
def list_unfinished_trials (un_rows : List Row) (trial_time : Int) :
    List (Int × String × String × Int) :=
  let un_by_tid := group_by_trial un_rows
  let unfinished := un_by_tid.filterMap (fun p =>
    let mt := max_time_for_trial p.2
    if mt < trial_time then
      let fb := fuzzer_bench_for_trial p.2
      some (p.1, fb.1, fb.2, mt)
    else none)
  stableSort (fun a b => a.1 ≤ b.1) unfinished

/-- The candidate-collection loop of `find_unique_finished_candidate_by_fb`:
entries of the grouped substitute dataset with matching identity, restricted
to finished ones (`max_time ≥ trial_time`) unless `allow_incomplete`. -/
def selectorCandidates (sub_by_tid : List (Int × List Row)) (trial_time : Int)
    (target_fb : String × String) (allow_incomplete : Bool) :
    List (Int × List Row × Int) :=
  sub_by_tid.filterMap (fun p =>
    if fuzzer_bench_for_trial p.2 = target_fb then
      let mt := max_time_for_trial p.2
      if allow_incomplete || decide (mt ≥ trial_time) then some (p.1, p.2, mt)
      else none
    else none)

/-- `find_unique_finished_candidate_by_fb`: select the substitute trial for a
target `(fuzzer, benchmark)` identity.  With `allow_incomplete` the
candidates are stably sorted by descending max time and the first is taken,
erroring on a tie (ids compared against the best one); otherwise exactly one
candidate is required. -/
def find_unique_finished_candidate_by_fb
    (sub_by_tid : List (Int × List Row)) (trial_time : Int)
    (target_fb : String × String) (allow_incomplete : Bool) :
    Except SubError (Int × List Row) :=
  let candidates := selectorCandidates sub_by_tid trial_time target_fb allow_incomplete
  if candidates.isEmpty then .error .noCandidateError
  else if allow_incomplete then
    match stableSort (fun a b => b.2.2 ≤ a.2.2) candidates with
    | [] => .error .noCandidateError
    | best :: rest =>
        let ties := (best :: rest).filter
          (fun c => c.2.2 = best.2.2 ∧ ¬ (c.1 = best.1))
        if ties.isEmpty then .ok (best.1, best.2.1)
        else .error .ambiguousCandidateError
  else if 1 < candidates.length then .error .ambiguousCandidateError
  else
    match candidates with
    | c :: _ => .ok (c.1, c.2.1)
    | [] => .error .noCandidateError

/-- Python dict assignment `m[k] = v` on an association list: overwrite in
place when the key exists, else append (insertion order preserved). -/
def assocSet [DecidableEq α] (m : List (α × β)) (k : α) (v : β) :
    List (α × β) :=
  if m.any (fun p => p.1 = k) then
    m.map (fun p => if p.1 = k then (k, v) else p)
  else m ++ [(k, v)]

/-- Python dict lookup `m.get(k)` on an association list. -/
def assocFind [DecidableEq α] (m : List (α × β)) (k : α) : Option β :=
  (m.find? (fun p => p.1 = k)).map (fun p => p.2)

/-- Rows of the trial `tid` in a grouped dataset (`[]` when absent). -/
def findTrialRows (by_tid : List (Int × List Row)) (tid : Int) : List Row :=
  (assocFind by_tid tid).getD []

/-- A substitution plan entry `(dest_tid, fuzzer, benchmark, src_tid)`. -/
abbrev PlanEntry := Int × String × String × Int

/-- The planning loop of `substitute_trials`: for each unfinished trial in
order, select a substitute, record it in `mapping` (a dict keyed by the
destination id) and append a plan entry; a selector failure aborts. -/
def planLoop (sub_by_tid : List (Int × List Row)) (trial_time : Int)
    (allow_incomplete : Bool) :
    List (Int × String × String × Int) →
    List (Int × Int × List Row) → List PlanEntry →
    Except SubError (List (Int × Int × List Row) × List PlanEntry)
  | [], mapping, plan => .ok (mapping, plan)
  | (dest_tid, f, b, _) :: rest, mapping, plan =>
    match find_unique_finished_candidate_by_fb sub_by_tid trial_time (f, b)
        allow_incomplete with
    | .error e => .error e
    | .ok (sub_tid, sub_rows) =>
        planLoop sub_by_tid trial_time allow_incomplete rest
          (assocSet mapping dest_tid (sub_tid, sub_rows))
          (plan ++ [(dest_tid, f, b, sub_tid)])

/-- `substitute_trials`: detect unfinished trials, plan one substitute per
destination, then build the output rows: all rows whose trial id is not
unfinished, in original order, followed by, per mapping entry, the source
trial's rows with `trial_id` rewritten to the destination id.  Returns
`(new_rows, substituted_dest_tids, plan)`. -/
def substitute_trials (unfinished_rows substitute_rows : List Row)
    (trial_time : Int) (allow_incomplete : Bool) :
    Except SubError (List Row × List Int × List PlanEntry) :=
  let sub_by_tid := group_by_trial substitute_rows
  let unfinished_meta := list_unfinished_trials unfinished_rows trial_time
  let unfinished_tids := unfinished_meta.map (fun x => x.1)
  match planLoop sub_by_tid trial_time allow_incomplete unfinished_meta [] [] with
  | .error e => .error e
  | .ok (mapping, plan) =>
      let new_rows :=
        unfinished_rows.filter (fun r => ¬ unfinished_tids.contains r.trial_id)
        ++ mapping.flatMap (fun p =>
             p.2.2.map (fun r => { r with trial_id := p.1 }))
      .ok (new_rows, unfinished_tids, plan)

/-- A per-trial throughput value: a float that may be `nan` (modelled over
the rationals, `nan` as its own constructor). -/
inductive RVal where
  | nan : RVal
  | num : ℚ → RVal
deriving DecidableEq, Repr

/-- Per-trial throughput data: `(speed, optional elapsed time)`. -/
abbrev SpeedEntry := RVal × Option ℚ

/-- One `(benchmark, fuzzer)` record's trial map, insertion ordered. -/
abbrev SpeedMap := List (Int × SpeedEntry)

/-- `SpeedResults` of the source: map keyed by `(benchmark, fuzzer)`. -/
abbrev SpeedResults := List ((String × String) × SpeedMap)

/-- Errors of the throughput reading / projection phase: the FormatError of a
`trials` field without trial ids, Python `ValueError` from unparseable
numbers or pairs, and the two lookup failures during projection. -/
inductive SpeedError where
  | formatError : SpeedError
  | valueError : SpeedError
  | missingKey : SpeedError
  | missingSrcTrial : SpeedError
deriving DecidableEq, Repr

/-- Python `str.strip()` on a character list: drop leading and trailing
whitespace. -/
def trimChars (cs : List Char) : List Char :=
  ((cs.dropWhile Char.isWhitespace).reverse.dropWhile Char.isWhitespace).reverse

/-- Split a character list on every occurrence of `sep` (the splitting done
by `s.split(sep)`); the empty list yields one empty field. -/
def splitOnChar (sep : Char) : List Char → List (List Char)
  | [] => [[]]
  | c :: rest =>
      if c = sep then [] :: splitOnChar sep rest
      else
        match splitOnChar sep rest with
        | [] => [[c]]
        | g :: gs => (c :: g) :: gs

/-- Python `item.split(sep, 1)` when `sep` occurs: the part before the first
`sep` and the untouched remainder; `none` when `sep` is absent (where the
source's two-variable tuple unpacking raises ValueError). -/
def splitFirst (sep : Char) : List Char → Option (List Char × List Char)
  | [] => none
  | c :: rest =>
      if c = sep then some ([], rest)
      else (splitFirst sep rest).map (fun p => (c :: p.1, p.2))

/-- Python `str.split()` (no argument): split on whitespace, dropping empty
tokens; modelled on the space separator of the throughput pair fields. -/
def tokensOf (cs : List Char) : List (List Char) :=
  (splitOnChar ' ' cs).filter (fun t => ¬ (t = []))

/-- Value of a digit list, empty worth `0` (`none` on a non-digit). -/
def digitsVal (cs : List Char) : Option Nat :=
  cs.foldlM (fun acc c =>
    if c.isDigit then some (acc * 10 + (c.toNat - 48)) else none) 0

/-- A nonempty all-digit list's value (Python `int` of an unsigned body). -/
def parseNat (cs : List Char) : Option Nat :=
  if cs = [] then none else digitsVal cs

/-- Python `int(s)` on decimal literals: optional sign, then digits. -/
def parseInt (cs : List Char) : Option Int :=
  match cs with
  | '-' :: rest => (parseNat rest).map (fun n => -(n : Int))
  | _ => (parseNat cs).map (fun n => (n : Int))

/-- Python `float(s)` on plain decimal literals, as an exact rational:
optional sign, digits, optional fractional part (either side of the point
may be empty but not both). -/
def parseFloat (cs : List Char) : Option ℚ :=
  let core (body : List Char) : Option ℚ :=
    match splitOnChar '.' body with
    | [i] => (parseNat i).map (fun n => (n : ℚ))
    | [i, f] =>
        if i = [] ∧ f = [] then none
        else
          match digitsVal i, digitsVal f with
          | some ni, some nf =>
              some ((ni : ℚ) + (nf : ℚ) / ((10 : ℚ) ^ f.length))
          | _, _ => none
    | _ => none
  match cs with
  | '-' :: rest => (core rest).map (fun q => -q)
  | _ => core cs

/-- Python `float(s)` including the `nan` literal, into `RVal`. -/
def parseRVal (cs : List Char) : Option RVal :=
  if cs = ['n', 'a', 'n'] then some .nan else (parseFloat cs).map .num

/-- One row of a throughput CSV, raw string fields as read. -/
structure SpeedRow where
  benchmark : String
  fuzzer : String
  trials : String
  trial_times : String
deriving DecidableEq, Repr

/-- A throughput CSV: whether the header has a `trial_times` column, and the
rows. -/
structure SpeedFile where
  has_times : Bool
  rows : List SpeedRow
deriving DecidableEq, Repr

/-- Parse the `trials` pairs of one row into the accumulated results:
`res[key][tid] = (val, None)` per `tid:val` token. -/
def parseTrialsField (key : String × String) (ts : List Char)
    (res : SpeedResults) : Except SpeedError SpeedResults :=
  (tokensOf ts).foldlM (fun acc item =>
    match splitFirst ':' item with
    | none => .error .valueError
    | some (tid_s, val_s) =>
        match parseInt tid_s, parseRVal val_s with
        | some tid, some v =>
            .ok (assocSet acc key (assocSet ((assocFind acc key).getD []) tid (v, none)))
        | _, _ => .error .valueError) res

/-- Parse the `trial_times` pairs of one row: a time for a trial id already
present keeps its speed; a time for an absent trial id inserts the trial with
`nan` speed and the given time. -/
def parseTimesField (key : String × String) (tts : List Char)
    (res : SpeedResults) : Except SpeedError SpeedResults :=
  (tokensOf tts).foldlM (fun acc item =>
    match splitFirst ':' item with
    | none => .error .valueError
    | some (tid_s, t_s) =>
        match parseInt tid_s, parseFloat t_s with
        | some tid, some t =>
            let m := (assocFind acc key).getD []
            match assocFind m tid with
            | some (spd, _) => .ok (assocSet acc key (assocSet m tid (spd, some t)))
            | none => .ok (assocSet acc key (assocSet m tid (RVal.nan, some t)))
        | _, _ => .error .valueError) res

/-- Process one throughput row as `read_speeds_csv` does: skip the row when
its stripped `trials` field is empty, fail with FormatError when it is
nonempty without a `:`, else parse the pairs and, when the header has
`trial_times`, the nonempty stripped times field. -/
def processSpeedRow (has_times : Bool) (res : SpeedResults) (row : SpeedRow) :
    Except SpeedError SpeedResults :=
  let key := (row.benchmark, row.fuzzer)
  let ts := trimChars row.trials.data
  if ts = [] then .ok res
  else if ¬ (ts.any (fun c => c = ':')) then .error .formatError
  else
    match parseTrialsField key ts res with
    | .error e => .error e
    | .ok res1 =>
        if has_times then
          let tts := trimChars row.trial_times.data
          if tts = [] then .ok res1 else parseTimesField key tts res1
        else .ok res1

/-- `read_speeds_csv`: fold the rows into a `SpeedResults`. -/
def read_speeds_csv (file : SpeedFile) : Except SpeedError SpeedResults :=
  file.rows.foldlM (processSpeedRow file.has_times) []

/-- The numeric (non-`nan`) speed values of a trial map, in map order: what
`[v for (v, _t) in tmap.values() if not _is_nan(v)]` collects. -/
def numeric_vals (tmap : SpeedMap) : List ℚ :=
  tmap.filterMap (fun p => match p.2.1 with | .nan => none | .num q => some q)

/-- `statistics.mean` over exact rationals. -/
def meanQ (vs : List ℚ) : ℚ := vs.sum / (vs.length : ℚ)

/-- The square of `statistics.stdev` (sample standard deviation) over exact
rationals; the square is used because the square root of a rational is not
rational, and `sqrt` is monotone with `sqrt 0 = 0`, so every claim about the
written stdev transfers to its square. -/
def sampleVarQ (vs : List ℚ) : ℚ :=
  (vs.map (fun x => (x - meanQ vs) ^ 2)).sum / ((vs.length : ℚ) - 1)

/-- The mean `write_speeds_csv` writes for a record: recomputed from the
numeric trial values, `nan` when there are none. -/
def written_mean (tmap : SpeedMap) : RVal :=
  if numeric_vals tmap = [] then .nan
  else .num (meanQ (numeric_vals tmap))

/-- The (squared) sample standard deviation `write_speeds_csv` writes for a
record: recomputed from the numeric trial values, `0` when fewer than two. -/
def written_stdev_sq (tmap : SpeedMap) : ℚ :=
  if 1 < (numeric_vals tmap).length then sampleVarQ (numeric_vals tmap) else 0

/-- The per-record content `write_speeds_csv` emits: benchmark, fuzzer,
recomputed mean and (squared) stdev, trial count, the trial pairs sorted by
trial id, and the time pairs of the trials that have a time (numeric string
formatting abstracted away). -/
def write_speeds_row (bench fuzz : String) (tmap : SpeedMap) :
    String × String × RVal × ℚ × Nat × List (Int × RVal) × List (Int × ℚ) :=
  let sorted := stableSort (fun a b => a.1 ≤ b.1) tmap
  (bench, fuzz, written_mean tmap, written_stdev_sq tmap, tmap.length,
   sorted.map (fun p => (p.1, p.2.1)),
   sorted.filterMap (fun p => (p.2.2).map (fun t => (p.1, t))))

/-- `apply_substitution_plan_to_speeds`: for each plan entry copy the source
trial's `(speed, time)` pair onto the destination trial id in the unfinished
results, failing when the substitute results lack the key or the source
trial. -/
def apply_substitution_plan_to_speeds
    (speeds_unfinished speeds_substitute : SpeedResults)
    (plan : List PlanEntry) : Except SpeedError SpeedResults :=
  plan.foldlM (fun acc e =>
    let key := (e.2.2.1, e.2.1)
    match assocFind speeds_substitute key with
    | none => .error .missingKey
    | some smap =>
        match assocFind smap e.2.2.2 with
        | none => .error .missingSrcTrial
        | some src_val =>
            let m := (assocFind acc key).getD []
            .ok (assocSet acc key (assocSet m e.1 src_val))) speeds_unfinished

/-- The output files `main` can write, in the order it writes them. -/
inductive OutFile where
  | primaryData : OutFile
  | throughput : OutFile
deriving DecidableEq, Repr

/-- A fatal error of a whole run. -/
inductive RunError where
  | planningError : SubError → RunError
  | throughputError : SpeedError → RunError
deriving DecidableEq, Repr

/-- The write/abort order of `main` after both primary datasets are read:
plan and build the fixed rows (aborting, with nothing written, on failure),
write the primary data CSV, then, when throughput files were requested, read
both throughput CSVs, project the plan and write the throughput CSV — each
throughput failure aborting after the primary file is already on disk.
Returns the files written, in order, and the fatal error if any. -/
def main_run (un_rows sub_rows : List Row) (trial_time : Int)
    (allow_incomplete : Bool) (speeds : Option (SpeedFile × SpeedFile)) :
    List OutFile × Option RunError :=
  match substitute_trials un_rows sub_rows trial_time allow_incomplete with
  | .error e => ([], some (.planningError e))
  | .ok (_, _, plan) =>
      match speeds with
      | none => ([.primaryData], none)
      | some (unF, subF) =>
          match read_speeds_csv unF with
          | .error e => ([.primaryData], some (.throughputError e))
          | .ok su =>
              match read_speeds_csv subF with
              | .error e => ([.primaryData], some (.throughputError e))
              | .ok ss =>
                  match apply_substitution_plan_to_speeds su ss plan with
                  | .error e => ([.primaryData], some (.throughputError e))
                  | .ok _ => ([.primaryData, .throughput], none)

/-- The selector's (deterministic) choice for one unfinished-trial record,
defaulting to a dummy on failure; on a successful run every plan entry's
source is `chosenFor` of its record. -/
def chosenFor (sub_by_tid : List (Int × List Row)) (trial_time : Int)
    (allow_incomplete : Bool) (x : Int × String × String × Int) :
    Int × List Row :=
  match find_unique_finished_candidate_by_fb sub_by_tid trial_time
      (x.2.1, x.2.2.1) allow_incomplete with
  | .ok p => p
  | .error _ => (0, [])

/-! ### Basic lemmas about the sorting and dictionary models -/

theorem insSorted_perm (le : α → α → Bool) (x : α) (l : List α) :
    List.Perm (insSorted le x l) (x :: l) := by
  induction l with
  | nil => simp [insSorted]
  | cons y ys ih =>
      simp only [insSorted]
      by_cases h : le y x = true
      · simp only [h, if_true]
        exact (List.Perm.cons y ih).trans (List.Perm.swap x y ys)
      · simp [h]

theorem stableSort_perm (le : α → α → Bool) (l : List α) :
    List.Perm (stableSort le l) l := by
  have key : ∀ (l : List α) (acc : List α),
      List.Perm (l.foldl (fun acc x => insSorted le x acc) acc) (acc ++ l) := by
    intro l
    induction l with
    | nil => intro acc; simp
    | cons x xs ih =>
        intro acc
        simp only [List.foldl_cons]
        refine (ih (insSorted le x acc)).trans ?_
        refine (List.Perm.append_right xs (insSorted_perm le x acc)).trans ?_
        simpa using List.perm_middle.symm
  simpa [stableSort] using key l []

theorem mem_stableSort (le : α → α → Bool) (l : List α) (a : α) :
    a ∈ stableSort le l ↔ a ∈ l :=
  (stableSort_perm le l).mem_iff

theorem insSorted_pairwise (le : α → α → Bool)
    (htrans : ∀ a b c, le a b = true → le b c = true → le a c = true)
    (htotal : ∀ a b, le a b = true ∨ le b a = true)
    (x : α) (l : List α) (hl : l.Pairwise (fun a b => le a b = true)) :
    (insSorted le x l).Pairwise (fun a b => le a b = true) := by
  induction l with
  | nil => simp [insSorted]
  | cons y ys ih =>
      rcases List.pairwise_cons.mp hl with ⟨hy, hys⟩
      simp only [insSorted]
      by_cases h : le y x = true
      · simp only [h, if_true]
        refine List.pairwise_cons.mpr ⟨?_, ih hys⟩
        intro z hz
        rcases List.mem_cons.mp ((insSorted_perm le x ys).mem_iff.mp hz) with rfl | hz
        · exact h
        · exact hy z hz
      · simp only [h, if_false]
        have hxy : le x y = true := (htotal x y).resolve_right h
        refine List.pairwise_cons.mpr ⟨?_, hl⟩
        intro z hz
        rcases List.mem_cons.mp hz with rfl | hz
        · exact hxy
        · exact htrans x y z hxy (hy z hz)

theorem stableSort_pairwise (le : α → α → Bool)
    (htrans : ∀ a b c, le a b = true → le b c = true → le a c = true)
    (htotal : ∀ a b, le a b = true ∨ le b a = true)
    (l : List α) :
    (stableSort le l).Pairwise (fun a b => le a b = true) := by
  have key : ∀ (l : List α) (acc : List α),
      acc.Pairwise (fun a b => le a b = true) →
      (l.foldl (fun acc x => insSorted le x acc) acc).Pairwise
        (fun a b => le a b = true) := by
    intro l
    induction l with
    | nil => intro acc h; simpa using h
    | cons x xs ih =>
        intro acc h
        exact ih _ (insSorted_pairwise le htrans htotal x acc h)
  exact key l [] (by simp)

theorem assocSet_of_not_mem [DecidableEq α] (m : List (α × β)) (k : α) (v : β)
    (h : k ∉ m.map Prod.fst) : assocSet m k v = m ++ [(k, v)] := by
  have : m.any (fun p => p.1 = k) = false := by
    simp only [List.any_eq_false, decide_eq_true_eq]
    intro p hp hpk
    exact h (List.mem_map.mpr ⟨p, hp, hpk⟩)
  simp [assocSet, this]

theorem assocFind_of_mem [DecidableEq α] (m : List (α × β))
    (hnod : (m.map Prod.fst).Nodup) (p : α × β) (hp : p ∈ m) :
    assocFind m p.1 = some p.2 := by
  induction m with
  | nil => cases hp
  | cons q rest ih =>
      simp only [List.map_cons, List.nodup_cons] at hnod
      rcases List.mem_cons.mp hp with rfl | hp
      · simp [assocFind, List.find?]
      · have hne : ¬ (q.1 = p.1) := by
          intro h
          exact hnod.1 (h ▸ List.mem_map.mpr ⟨p, hp, rfl⟩)
        have := ih hnod.2 hp
        simpa [assocFind, List.find?, hne] using this

theorem insertGroup_keys (m : List (Int × List Row)) (tid : Int) (r : Row) :
    (insertGroup m tid r).map Prod.fst =
      if tid ∈ m.map Prod.fst then m.map Prod.fst
      else m.map Prod.fst ++ [tid] := by
  induction m with
  | nil => simp [insertGroup]
  | cons q rest ih =>
      simp only [insertGroup]
      by_cases h : q.1 = tid
      · simp [h]
      · have hne : ¬ (tid = q.1) := fun hh => h hh.symm
        by_cases hmem : tid ∈ rest.map Prod.fst <;>
          simp [h, hne, hmem, ih]

theorem insertGroup_keys_nodup (m : List (Int × List Row)) (tid : Int) (r : Row)
    (h : (m.map Prod.fst).Nodup) :
    ((insertGroup m tid r).map Prod.fst).Nodup := by
  rw [insertGroup_keys]
  by_cases hmem : tid ∈ m.map Prod.fst
  · simpa [hmem] using h
  · simp only [hmem, if_false]
    refine List.Nodup.append h (List.nodup_singleton tid) ?_
    intro a ha ha'
    rw [List.mem_singleton] at ha'
    subst ha'
    exact hmem ha

theorem group_by_trial_keys_nodup (rows : List Row) :
    ((group_by_trial rows).map Prod.fst).Nodup := by
  have key : ∀ (rows : List Row) (m : List (Int × List Row)),
      (m.map Prod.fst).Nodup →
      (((rows.foldl (fun m r => insertGroup m r.trial_id r) m)).map Prod.fst).Nodup := by
    intro rows
    induction rows with
    | nil => intro m h; simpa using h
    | cons r rest ih =>
        intro m h
        exact ih _ (insertGroup_keys_nodup m r.trial_id r h)
  exact key rows [] (by simp)

/-! ### Candidate Selector characterisation -/

/-- The trials of a grouped search dataset whose logical identity equals the
target. -/
def matchingTrials (s : List (Int × List Row)) (fb : String × String) :
    List (Int × List Row) :=
  s.filter (fun p => fuzzer_bench_for_trial p.2 = fb)

/-- The matching trials that are moreover finished (`max_time ≥ threshold`). -/
def finishedMatchingTrials (s : List (Int × List Row)) (trial_time : Int)
    (fb : String × String) : List (Int × List Row) :=
  s.filter (fun p =>
    fuzzer_bench_for_trial p.2 = fb ∧ trial_time ≤ max_time_for_trial p.2)

theorem selectorCandidates_cons (q : Int × List Row) (rest : List (Int × List Row))
    (tt : Int) (fb : String × String) (ai : Bool) :
    selectorCandidates (q :: rest) tt fb ai =
      (if fuzzer_bench_for_trial q.2 = fb ∧
          (ai || decide (max_time_for_trial q.2 ≥ tt)) = true
       then [(q.1, q.2, max_time_for_trial q.2)] else [])
      ++ selectorCandidates rest tt fb ai := by
  simp only [selectorCandidates, List.filterMap_cons]
  by_cases h1 : fuzzer_bench_for_trial q.2 = fb
  · by_cases h2 : (ai || decide (max_time_for_trial q.2 ≥ tt)) = true
    · simp [h1, h2]
    · simp [h1, h2]
  · simp [h1]

theorem finishedMatchingTrials_cons (q : Int × List Row)
    (rest : List (Int × List Row)) (tt : Int) (fb : String × String) :
    finishedMatchingTrials (q :: rest) tt fb =
      (if fuzzer_bench_for_trial q.2 = fb ∧ tt ≤ max_time_for_trial q.2
       then [q] else [])
      ++ finishedMatchingTrials rest tt fb := by
  by_cases h : fuzzer_bench_for_trial q.2 = fb ∧ tt ≤ max_time_for_trial q.2
  · simp [finishedMatchingTrials, List.filter_cons, h]
  · simp [finishedMatchingTrials, List.filter_cons, h]

theorem matchingTrials_cons (q : Int × List Row) (rest : List (Int × List Row))
    (fb : String × String) :
    matchingTrials (q :: rest) fb =
      (if fuzzer_bench_for_trial q.2 = fb then [q] else [])
      ++ matchingTrials rest fb := by
  by_cases h : fuzzer_bench_for_trial q.2 = fb
  · simp [matchingTrials, List.filter_cons, h]
  · simp [matchingTrials, List.filter_cons, h]

theorem selectorCandidates_false (s : List (Int × List Row)) (tt : Int)
    (fb : String × String) :
    selectorCandidates s tt fb false =
      (finishedMatchingTrials s tt fb).map
        (fun p => (p.1, p.2, max_time_for_trial p.2)) := by
  induction s with
  | nil => rfl
  | cons q rest ih =>
      rw [selectorCandidates_cons, finishedMatchingTrials_cons, List.map_append, ih]
      by_cases h1 : fuzzer_bench_for_trial q.2 = fb
      · by_cases h2 : tt ≤ max_time_for_trial q.2
        · simp [h1, h2, ge_iff_le]
        · simp [h1, h2, ge_iff_le]
      · simp [h1]

theorem selectorCandidates_true (s : List (Int × List Row)) (tt : Int)
    (fb : String × String) :
    selectorCandidates s tt fb true =
      (matchingTrials s fb).map (fun p => (p.1, p.2, max_time_for_trial p.2)) := by
  induction s with
  | nil => rfl
  | cons q rest ih =>
      rw [selectorCandidates_cons, matchingTrials_cons, List.map_append, ih]
      by_cases h1 : fuzzer_bench_for_trial q.2 = fb
      · simp [h1]
      · simp [h1]

theorem find_unique_false_eq (s : List (Int × List Row)) (tt : Int)
    (fb : String × String) :
    find_unique_finished_candidate_by_fb s tt fb false =
      match finishedMatchingTrials s tt fb with
      | [] => .error .noCandidateError
      | [c] => .ok (c.1, c.2)
      | _ :: _ :: _ => .error .ambiguousCandidateError := by
  simp only [find_unique_finished_candidate_by_fb, selectorCandidates_false]
  cases h : finishedMatchingTrials s tt fb with
  | nil => simp
  | cons c cs =>
      cases cs with
      | nil => simp
      | cons c2 cs2 => simp

theorem find_unique_true_eq (s : List (Int × List Row)) (tt : Int)
    (fb : String × String) (best : Int × List Row × Int)
    (rest : List (Int × List Row × Int))
    (hs : stableSort (fun a b => b.2.2 ≤ a.2.2) (selectorCandidates s tt fb true)
      = best :: rest) :
    find_unique_finished_candidate_by_fb s tt fb true =
      if ((best :: rest).filter
            (fun c => c.2.2 = best.2.2 ∧ ¬ (c.1 = best.1))).isEmpty
      then .ok (best.1, best.2.1)
      else .error .ambiguousCandidateError := by
  have hne : (selectorCandidates s tt fb true).isEmpty = false := by
    rw [List.isEmpty_eq_false]
    intro h
    rw [h] at hs
    simp [stableSort] at hs
  simp only [find_unique_finished_candidate_by_fb, hne, Bool.false_eq_true,
    if_false, if_true]
  rw [hs]

theorem find_unique_true_empty (s : List (Int × List Row)) (tt : Int)
    (fb : String × String) (h : matchingTrials s fb = []) :
    find_unique_finished_candidate_by_fb s tt fb true =
      .error .noCandidateError := by
  have : (selectorCandidates s tt fb true).isEmpty = true := by
    rw [selectorCandidates_true, h]
    rfl
  simp [find_unique_finished_candidate_by_fb, this]

theorem descByTime_trans :
    ∀ a b c : Int × List Row × Int, (decide (b.2.2 ≤ a.2.2)) = true →
      (decide (c.2.2 ≤ b.2.2)) = true → (decide (c.2.2 ≤ a.2.2)) = true := by
  intro a b c hab hbc
  simp only [decide_eq_true_eq] at *
  exact le_trans hbc hab

theorem descByTime_total :
    ∀ a b : Int × List Row × Int, (decide (b.2.2 ≤ a.2.2)) = true ∨
      (decide (a.2.2 ≤ b.2.2)) = true := by
  intro a b
  rcases Int.le_total b.2.2 a.2.2 with h | h
  · exact Or.inl (by simpa using h)
  · exact Or.inr (by simpa using h)

theorem find_unique_true_ok (s : List (Int × List Row)) (tt : Int)
    (fb : String × String) (hnod : (s.map Prod.fst).Nodup)
    (t : Int × List Row) (ht : t ∈ matchingTrials s fb)
    (hmax : ∀ u ∈ matchingTrials s fb, u ≠ t →
      max_time_for_trial u.2 < max_time_for_trial t.2) :
    find_unique_finished_candidate_by_fb s tt fb true = .ok (t.1, t.2) := by
  have hcands := selectorCandidates_true s tt fb
  have hft : (t.1, t.2, max_time_for_trial t.2) ∈ selectorCandidates s tt fb true := by
    rw [hcands]
    exact List.mem_map.mpr ⟨t, ht, rfl⟩
  have hinj : ∀ ⦃p⦄, p ∈ matchingTrials s fb → ∀ ⦃q⦄, q ∈ matchingTrials s fb →
      p.1 = q.1 → p = q := by
    have hsub : ((matchingTrials s fb).map Prod.fst).Sublist (s.map Prod.fst) :=
      (List.filter_sublist s).map Prod.fst
    exact List.inj_on_of_nodup_map (hsub.nodup hnod)
  cases hs : stableSort (fun a b => b.2.2 ≤ a.2.2) (selectorCandidates s tt fb true) with
  | nil =>
      exfalso
      have := (stableSort_perm (fun a b => b.2.2 ≤ a.2.2)
        (selectorCandidates s tt fb true)).symm.mem_iff.mp hft
      rw [hs] at this
      cases this
  | cons best rest =>
      have hmem : ∀ z, z ∈ best :: rest ↔ z ∈ selectorCandidates s tt fb true := by
        intro z
        rw [← hs]
        exact (stableSort_perm _ _).mem_iff
      have hpair := stableSort_pairwise (fun a b => b.2.2 ≤ a.2.2)
        descByTime_trans descByTime_total (selectorCandidates s tt fb true)
      rw [hs] at hpair
      have hhead := (List.pairwise_cons.mp hpair).1
      have hbestmax : ∀ z ∈ selectorCandidates s tt fb true, z.2.2 ≤ best.2.2 := by
        intro z hz
        rcases List.mem_cons.mp ((hmem z).mpr hz) with rfl | hz'
        · exact le_refl _
        · simpa using hhead z hz'
      obtain ⟨w, hw, hfw⟩ : ∃ w ∈ matchingTrials s fb,
          (w.1, w.2, max_time_for_trial w.2) = best := by
        have : best ∈ selectorCandidates s tt fb true := (hmem best).mp (by simp)
        rw [hcands] at this
        exact List.mem_map.mp this
      have hwt : w = t := by
        by_contra hne
        have hlt := hmax w hw hne
        have hle : max_time_for_trial t.2 ≤ best.2.2 := by
          have := hbestmax _ hft
          simpa using this
        rw [← hfw] at hle
        exact absurd (lt_of_le_of_lt hle hlt) (lt_irrefl _)
      subst hwt
      have hties : ((best :: rest).filter
          (fun c => c.2.2 = best.2.2 ∧ ¬ (c.1 = best.1))) = [] := by
        rw [List.filter_eq_nil]
        intro c hc
        have hcc : c ∈ selectorCandidates s tt fb true := (hmem c).mp hc
        rw [hcands] at hcc
        obtain ⟨v, hv, hfv⟩ := List.mem_map.mp hcc
        simp only [decide_eq_true_eq, not_and, not_not]
        intro hceq
        by_contra hc1
        have hvt : v ≠ w := by
          intro h
          subst h
          rw [← hfv, ← hfw] at hc1
          exact hc1 rfl
        have hlt := hmax v hv hvt
        have : c.2.2 = max_time_for_trial v.2 := by rw [← hfv]
        rw [this, ← hfw] at hceq
        rw [hceq] at hlt
        exact absurd hlt (lt_irrefl _)
      rw [find_unique_true_eq s tt fb best rest hs, hties]
      rw [← hfw]
      simp

theorem find_unique_true_tie (s : List (Int × List Row)) (tt : Int)
    (fb : String × String) (hnod : (s.map Prod.fst).Nodup)
    (t u : Int × List Row) (ht : t ∈ matchingTrials s fb)
    (hu : u ∈ matchingTrials s fb) (htu : t ≠ u)
    (heq : max_time_for_trial t.2 = max_time_for_trial u.2)
    (hmax : ∀ v ∈ matchingTrials s fb,
      max_time_for_trial v.2 ≤ max_time_for_trial t.2) :
    find_unique_finished_candidate_by_fb s tt fb true =
      .error .ambiguousCandidateError := by
  have hcands := selectorCandidates_true s tt fb
  have hft : (t.1, t.2, max_time_for_trial t.2) ∈ selectorCandidates s tt fb true := by
    rw [hcands]
    exact List.mem_map.mpr ⟨t, ht, rfl⟩
  have hfu : (u.1, u.2, max_time_for_trial u.2) ∈ selectorCandidates s tt fb true := by
    rw [hcands]
    exact List.mem_map.mpr ⟨u, hu, rfl⟩
  have hinj : ∀ ⦃p⦄, p ∈ matchingTrials s fb → ∀ ⦃q⦄, q ∈ matchingTrials s fb →
      p.1 = q.1 → p = q := by
    have hsub : ((matchingTrials s fb).map Prod.fst).Sublist (s.map Prod.fst) :=
      (List.filter_sublist s).map Prod.fst
    exact List.inj_on_of_nodup_map (hsub.nodup hnod)
  have htu1 : t.1 ≠ u.1 := fun h => htu (hinj ht hu h)
  cases hs : stableSort (fun a b => b.2.2 ≤ a.2.2) (selectorCandidates s tt fb true) with
  | nil =>
      exfalso
      have := (stableSort_perm (fun a b => b.2.2 ≤ a.2.2)
        (selectorCandidates s tt fb true)).symm.mem_iff.mp hft
      rw [hs] at this
      cases this
  | cons best rest =>
      have hmem : ∀ z, z ∈ best :: rest ↔ z ∈ selectorCandidates s tt fb true := by
        intro z
        rw [← hs]
        exact (stableSort_perm _ _).mem_iff
      have hpair := stableSort_pairwise (fun a b => b.2.2 ≤ a.2.2)
        descByTime_trans descByTime_total (selectorCandidates s tt fb true)
      rw [hs] at hpair
      have hhead := (List.pairwise_cons.mp hpair).1
      have hbestmax : ∀ z ∈ selectorCandidates s tt fb true, z.2.2 ≤ best.2.2 := by
        intro z hz
        rcases List.mem_cons.mp ((hmem z).mpr hz) with rfl | hz'
        · exact le_refl _
        · simpa using hhead z hz'
      obtain ⟨w, hw, hfw⟩ : ∃ w ∈ matchingTrials s fb,
          (w.1, w.2, max_time_for_trial w.2) = best := by
        have : best ∈ selectorCandidates s tt fb true := (hmem best).mp (by simp)
        rw [hcands] at this
        exact List.mem_map.mp this
      have hwmax : best.2.2 = max_time_for_trial t.2 := by
        have h1 : max_time_for_trial t.2 ≤ best.2.2 := by
          have := hbestmax _ hft
          simpa using this
        have h2 : best.2.2 ≤ max_time_for_trial t.2 := by
          rw [← hfw]
          exact hmax w hw
        exact le_antisymm h2 h1
      have hpick : ∃ c ∈ best :: rest, c.2.2 = best.2.2 ∧ ¬ (c.1 = best.1) := by
        by_cases hw1 : w.1 = t.1
        · refine ⟨(u.1, u.2, max_time_for_trial u.2), (hmem _).mpr hfu, ?_, ?_⟩
          · simpa [hwmax] using heq.symm
          · simp only []
            rw [← hfw]
            simp only []
            intro h
            exact htu1 (hw1.symm.trans h.symm)
        · refine ⟨(t.1, t.2, max_time_for_trial t.2), (hmem _).mpr hft, ?_, ?_⟩
          · simpa using hwmax.symm
          · simp only []
            rw [← hfw]
            simp only []
            intro h
            exact hw1 h.symm
      have hties : ((best :: rest).filter
          (fun c => c.2.2 = best.2.2 ∧ ¬ (c.1 = best.1))).isEmpty = false := by
        rw [List.isEmpty_eq_false]
        intro hnil
        obtain ⟨c, hc, hc1, hc2⟩ := hpick
        have := (List.filter_eq_nil.mp hnil) c hc
        simp only [decide_eq_true_eq] at this
        exact this ⟨hc1, hc2⟩
      rw [find_unique_true_eq s tt fb best rest hs, hties]
      simp

/-! ### Substitution Planner characterisation -/

theorem selectorCandidates_mem (s : List (Int × List Row)) (tt : Int)
    (fb : String × String) (ai : Bool) (c : Int × List Row × Int)
    (hc : c ∈ selectorCandidates s tt fb ai) :
    (c.1, c.2.1) ∈ s ∧ c.2.2 = max_time_for_trial c.2.1 ∧
      fuzzer_bench_for_trial c.2.1 = fb := by
  obtain ⟨p, hp, he⟩ := List.mem_filterMap.mp hc
  simp only at he
  split at he
  · split at he
    · injection he with he'
      subst he'
      exact ⟨by simpa using hp, rfl, by assumption⟩
    · exact absurd he (by simp)
  · exact absurd he (by simp)

theorem find_unique_ok_mem (s : List (Int × List Row)) (tt : Int)
    (fb : String × String) (ai : Bool) (tid : Int) (rs : List Row)
    (h : find_unique_finished_candidate_by_fb s tt fb ai = .ok (tid, rs)) :
    (tid, rs) ∈ s := by
  simp only [find_unique_finished_candidate_by_fb] at h
  split at h
  · exact Except.noConfusion h
  · split at h
    · split at h
      · exact Except.noConfusion h
      · rename_i best rest heq
        split at h
        · injection h with h'
          have hb : best ∈ selectorCandidates s tt fb ai := by
            have hmem : best ∈ best :: rest := by simp
            rw [← heq] at hmem
            exact (stableSort_perm _ _).mem_iff.mp hmem
          exact h' ▸ (selectorCandidates_mem s tt fb ai best hb).1
        · exact Except.noConfusion h
    · split at h
      · exact Except.noConfusion h
      · split at h
        · rename_i c cs heq
          injection h with h'
          have hb : c ∈ selectorCandidates s tt fb ai := by
            rw [heq]
            simp
          exact h' ▸ (selectorCandidates_mem s tt fb ai c hb).1
        · exact Except.noConfusion h

theorem planLoop_sel (s : List (Int × List Row)) (tt : Int) (ai : Bool) :
    ∀ (meta : List (Int × String × String × Int))
      (mapping : List (Int × Int × List Row)) (plan : List PlanEntry)
      (m' : List (Int × Int × List Row)) (p' : List PlanEntry),
      planLoop s tt ai meta mapping plan = .ok (m', p') →
      ∀ x ∈ meta, find_unique_finished_candidate_by_fb s tt (x.2.1, x.2.2.1) ai
        = .ok (chosenFor s tt ai x) := by
  intro meta
  induction meta with
  | nil => intro _ _ _ _ _ x hx; cases hx
  | cons x rest ih =>
      obtain ⟨d, f, b, mt⟩ := x
      intro mapping plan m' p' h y hy
      simp only [planLoop] at h
      cases hsel : find_unique_finished_candidate_by_fb s tt (f, b) ai with
      | error e => rw [hsel] at h; exact Except.noConfusion h
      | ok pr =>
          obtain ⟨st, sr⟩ := pr
          rw [hsel] at h
          rcases List.mem_cons.mp hy with rfl | hy'
          · simp only [chosenFor]
            rw [hsel]
          · exact ih _ _ _ _ h y hy'

theorem planLoop_ok_eq (s : List (Int × List Row)) (tt : Int) (ai : Bool) :
    ∀ (meta : List (Int × String × String × Int))
      (mapping : List (Int × Int × List Row)) (plan : List PlanEntry),
      (∀ x ∈ meta, find_unique_finished_candidate_by_fb s tt (x.2.1, x.2.2.1) ai
        = .ok (chosenFor s tt ai x)) →
      planLoop s tt ai meta mapping plan =
        .ok (meta.foldl (fun m x => assocSet m x.1 (chosenFor s tt ai x)) mapping,
             plan ++ meta.map
               (fun x => (x.1, x.2.1, x.2.2.1, (chosenFor s tt ai x).1))) := by
  intro meta
  induction meta with
  | nil => intro mapping plan _; simp [planLoop]
  | cons x rest ih =>
      obtain ⟨d, f, b, mt⟩ := x
      intro mapping plan hall
      have hx : find_unique_finished_candidate_by_fb s tt (f, b) ai
          = .ok (chosenFor s tt ai (d, f, b, mt)) := hall (d, f, b, mt) (by simp)
      have hrec := ih (assocSet mapping d (chosenFor s tt ai (d, f, b, mt)))
        (plan ++ [(d, f, b, (chosenFor s tt ai (d, f, b, mt)).1)])
        (fun y hy => hall y (List.mem_cons_of_mem _ hy))
      rcases hch : chosenFor s tt ai (d, f, b, mt) with ⟨ct, cr⟩
      rw [hch] at hx hrec
      simp only [planLoop]
      rw [hx]
      show planLoop s tt ai rest (assocSet mapping d (ct, cr))
          (plan ++ [(d, f, b, ct)]) = _
      rw [hrec]
      simp [hch, List.append_assoc]

theorem foldl_assocSet_eq (g : (Int × String × String × Int) → Int × List Row) :
    ∀ (meta : List (Int × String × String × Int))
      (m : List (Int × Int × List Row)),
      (∀ x ∈ meta, x.1 ∉ m.map Prod.fst) →
      (meta.map (fun x => x.1)).Nodup →
      meta.foldl (fun m x => assocSet m x.1 (g x)) m =
        m ++ meta.map (fun x => (x.1, g x)) := by
  intro meta
  induction meta with
  | nil => intro m _ _; simp
  | cons x rest ih =>
      intro m hfresh hnod
      simp only [List.foldl_cons]
      rw [assocSet_of_not_mem m x.1 (g x) (hfresh x (by simp))]
      have hnod' : (rest.map (fun x => x.1)).Nodup := by
        simpa using (List.nodup_cons.mp (by simpa using hnod)).2
      have hfresh' : ∀ y ∈ rest, y.1 ∉ (m ++ [(x.1, g x)]).map Prod.fst := by
        intro y hy
        simp only [List.map_append, List.mem_append]
        rintro (hmem | hmem)
        · exact hfresh y (List.mem_cons_of_mem _ hy) hmem
        · have hne : x.1 ∉ rest.map (fun x => x.1) :=
            (List.nodup_cons.mp (by simpa using hnod)).1
          simp only [List.map_cons, List.map_nil, List.mem_cons,
            List.not_mem_nil, or_false] at hmem
          exact hne (hmem ▸ List.mem_map.mpr ⟨y, hy, rfl⟩)
      rw [ih _ hfresh' hnod']
      simp

theorem nodup_map_fst_filterMap
    (f : (Int × List Row) → Option (Int × String × String × Int))
    (hf : ∀ p y, f p = some y → y.1 = p.1) (l : List (Int × List Row))
    (hl : (l.map Prod.fst).Nodup) :
    ((l.filterMap f).map (fun y => y.1)).Nodup := by
  induction l with
  | nil => simp
  | cons p rest ih =>
      simp only [List.map_cons, List.nodup_cons] at hl
      rw [List.filterMap_cons]
      cases hfp : f p with
      | none => exact ih hl.2
      | some y =>
          simp only [List.map_cons, List.nodup_cons]
          refine ⟨?_, ih hl.2⟩
          intro hy
          obtain ⟨z, hz, hz1⟩ := List.mem_map.mp hy
          obtain ⟨q, hq, hfq⟩ := List.mem_filterMap.mp hz
          have : y.1 = p.1 := hf p y hfp
          have : q.1 = p.1 := by rw [← hf q z hfq, hz1, this]
          exact hl.1 (this ▸ List.mem_map.mpr ⟨q, hq, rfl⟩)

theorem list_unfinished_tids_nodup (un_rows : List Row) (tt : Int) :
    ((list_unfinished_trials un_rows tt).map (fun x => x.1)).Nodup := by
  simp only [list_unfinished_trials]
  refine (((stableSort_perm _ _).map _).nodup_iff).mpr
    (nodup_map_fst_filterMap _ ?_ _ (group_by_trial_keys_nodup un_rows))
  intro p y h
  split at h
  · injection h with h'
    rw [← h']
  · exact Option.noConfusion h

theorem mem_list_unfinished (un_rows : List Row) (tt : Int)
    (x : Int × String × String × Int) :
    x ∈ list_unfinished_trials un_rows tt ↔
      ∃ p ∈ group_by_trial un_rows,
        max_time_for_trial p.2 < tt ∧
        x = (p.1, (fuzzer_bench_for_trial p.2).1, (fuzzer_bench_for_trial p.2).2,
             max_time_for_trial p.2) := by
  simp only [list_unfinished_trials]
  rw [mem_stableSort, List.mem_filterMap]
  constructor
  · rintro ⟨p, hp, he⟩
    split at he
    · injection he with he'
      exact ⟨p, hp, by assumption, he'.symm⟩
    · exact Option.noConfusion he
  · rintro ⟨p, hp, hlt, rfl⟩
    exact ⟨p, hp, by rw [if_pos hlt]⟩

theorem list_unfinished_sorted (un_rows : List Row) (tt : Int) :
    (list_unfinished_trials un_rows tt).Pairwise (fun a b => a.1 ≤ b.1) := by
  simp only [list_unfinished_trials]
  have htrans : ∀ a b c : Int × String × String × Int,
      decide (a.1 ≤ b.1) = true → decide (b.1 ≤ c.1) = true →
      decide (a.1 ≤ c.1) = true := by
    intro a b c hab hbc
    simp only [decide_eq_true_eq] at hab hbc ⊢
    exact le_trans hab hbc
  have htot : ∀ a b : Int × String × String × Int,
      decide (a.1 ≤ b.1) = true ∨ decide (b.1 ≤ a.1) = true := by
    intro a b
    rcases Int.le_total a.1 b.1 with h | h
    · exact Or.inl (by simpa using h)
    · exact Or.inr (by simpa using h)
  exact (stableSort_pairwise _ htrans htot _).imp (fun hd => by simpa using hd)

theorem chosenFor_rows (s : List (Int × List Row)) (tt : Int) (ai : Bool)
    (x : Int × String × String × Int) (hnod : (s.map Prod.fst).Nodup)
    (hok : find_unique_finished_candidate_by_fb s tt (x.2.1, x.2.2.1) ai
      = .ok (chosenFor s tt ai x)) :
    (chosenFor s tt ai x).2 = findTrialRows s (chosenFor s tt ai x).1 := by
  have hmem : ((chosenFor s tt ai x).1, (chosenFor s tt ai x).2) ∈ s :=
    find_unique_ok_mem s tt (x.2.1, x.2.2.1) ai _ _ hok
  have := assocFind_of_mem s hnod _ hmem
  simp only [findTrialRows, this, Option.getD_some]

theorem substitute_trials_ok_eq (un_rows substitute_rows : List Row)
    (tt : Int) (ai : Bool) (nr : List Row) (tids : List Int)
    (plan : List PlanEntry)
    (h : substitute_trials un_rows substitute_rows tt ai = .ok (nr, tids, plan)) :
    tids = (list_unfinished_trials un_rows tt).map (fun x => x.1) ∧
    plan = (list_unfinished_trials un_rows tt).map
      (fun x => (x.1, x.2.1, x.2.2.1,
        (chosenFor (group_by_trial substitute_rows) tt ai x).1)) ∧
    (∀ x ∈ list_unfinished_trials un_rows tt,
      find_unique_finished_candidate_by_fb (group_by_trial substitute_rows) tt
        (x.2.1, x.2.2.1) ai
        = .ok (chosenFor (group_by_trial substitute_rows) tt ai x)) ∧
    nr = un_rows.filter (fun r => ¬ tids.contains r.trial_id)
      ++ ((list_unfinished_trials un_rows tt).map
            (fun x => (x.1, chosenFor (group_by_trial substitute_rows) tt ai x))).flatMap
           (fun p => p.2.2.map (fun r => { r with trial_id := p.1 })) := by
  simp only [substitute_trials] at h
  cases hpl : planLoop (group_by_trial substitute_rows) tt ai
      (list_unfinished_trials un_rows tt) [] [] with
  | error e => rw [hpl] at h; exact Except.noConfusion h
  | ok pr =>
      obtain ⟨mapping, plan0⟩ := pr
      rw [hpl] at h
      injection h with h'
      simp only [Prod.mk.injEq] at h'
      obtain ⟨h1, h2, h3⟩ := h'
      have hall := planLoop_sel _ tt ai (list_unfinished_trials un_rows tt)
        [] [] mapping plan0 hpl
      have heq := planLoop_ok_eq (group_by_trial substitute_rows) tt ai
        (list_unfinished_trials un_rows tt) [] [] hall
      rw [hpl] at heq
      injection heq with heq'
      simp only [Prod.mk.injEq] at heq'
      obtain ⟨hm, hp0⟩ := heq'
      have hmap : mapping = (list_unfinished_trials un_rows tt).map
          (fun x => (x.1, chosenFor (group_by_trial substitute_rows) tt ai x)) := by
        rw [hm, foldl_assocSet_eq _ _ [] (by simp)
          (list_unfinished_tids_nodup un_rows tt)]
        simp
      refine ⟨h2.symm, ?_, hall, ?_⟩
      · rw [← h3, hp0]
        simp
      · rw [← h1, hmap, ← h2]

/-! ### Claims C1 and C2: the Candidate Selector -/

/-- C1: for every search dataset, threshold and target identity, with
`allow_incomplete` false the Candidate Selector restricts to trials whose
logical identity equals the target and whose max_time is at least the
threshold: NoCandidateError when zero such trials exist,
AmbiguousCandidateError when more than one exists, and the unique candidate
otherwise. -/
theorem claim_C1_selector_strict (s : List (Int × List Row)) (tt : Int)
    (fb : String × String) :
    (finishedMatchingTrials s tt fb = [] →
      find_unique_finished_candidate_by_fb s tt fb false
        = .error .noCandidateError) ∧
    (1 < (finishedMatchingTrials s tt fb).length →
      find_unique_finished_candidate_by_fb s tt fb false
        = .error .ambiguousCandidateError) ∧
    (∀ c, finishedMatchingTrials s tt fb = [c] →
      find_unique_finished_candidate_by_fb s tt fb false = .ok (c.1, c.2)) := by
  refine ⟨fun h => ?_, fun h => ?_, fun c h => ?_⟩
  · rw [find_unique_false_eq, h]
  · rw [find_unique_false_eq]
    rcases hM : finishedMatchingTrials s tt fb with _ | ⟨c1, _ | ⟨c2, rest⟩⟩
    · rw [hM] at h; simp at h
    · rw [hM] at h; simp at h
    · rfl
  · rw [find_unique_false_eq, h]

/-- Witness for C1 at a concrete dataset: one finished matching trial, which
the selector returns. -/
theorem claim_C1_selector_strict_witness :
    finishedMatchingTrials [(9, [⟨9, 90000, "afl", "libpng", []⟩])] 86400
      ("afl", "libpng") = [(9, [⟨9, 90000, "afl", "libpng", []⟩])] ∧
    find_unique_finished_candidate_by_fb
      [(9, [⟨9, 90000, "afl", "libpng", []⟩])] 86400 ("afl", "libpng") false
      = .ok (9, [⟨9, 90000, "afl", "libpng", []⟩]) :=
  ⟨by decide,
   (claim_C1_selector_strict [(9, [⟨9, 90000, "afl", "libpng", []⟩])] 86400
      ("afl", "libpng")).2.2 (9, [⟨9, 90000, "afl", "libpng", []⟩]) (by decide)⟩

/-- C2: for every search dataset (grouped, so with distinct trial ids),
threshold and target identity, with `allow_incomplete` true the Candidate
Selector considers all trials matching the target identity regardless of
completion: NoCandidateError when none exist, AmbiguousCandidateError when
two or more candidates tie for the greatest max_time, and otherwise the
trial with the strictly greatest max_time is returned. -/
theorem claim_C2_selector_incomplete (s : List (Int × List Row)) (tt : Int)
    (fb : String × String) (hnod : (s.map Prod.fst).Nodup) :
    (matchingTrials s fb = [] →
      find_unique_finished_candidate_by_fb s tt fb true
        = .error .noCandidateError) ∧
    (∀ t ∈ matchingTrials s fb,
      (∀ u ∈ matchingTrials s fb, u ≠ t →
        max_time_for_trial u.2 < max_time_for_trial t.2) →
      find_unique_finished_candidate_by_fb s tt fb true = .ok (t.1, t.2)) ∧
    (∀ t ∈ matchingTrials s fb, ∀ u ∈ matchingTrials s fb, t ≠ u →
      max_time_for_trial t.2 = max_time_for_trial u.2 →
      (∀ v ∈ matchingTrials s fb,
        max_time_for_trial v.2 ≤ max_time_for_trial t.2) →
      find_unique_finished_candidate_by_fb s tt fb true
        = .error .ambiguousCandidateError) :=
  ⟨fun h => find_unique_true_empty s tt fb h,
   fun t ht hmax => find_unique_true_ok s tt fb hnod t ht hmax,
   fun t ht u hu htu heq hmax =>
     find_unique_true_tie s tt fb hnod t u ht hu htu heq hmax⟩

/-- Witness for C2 at a concrete dataset: two incomplete matching trials with
distinct max times; the strictly best one is returned. -/
theorem claim_C2_selector_incomplete_witness :
    (([(9, [⟨9, 40000, "afl", "libpng", []⟩]),
       (10, [⟨10, 50000, "afl", "libpng", []⟩])].map
        (Prod.fst (α := Int) (β := List Row))).Nodup) ∧
    (10, [⟨10, 50000, "afl", "libpng", []⟩]) ∈
      matchingTrials [(9, [⟨9, 40000, "afl", "libpng", []⟩]),
        (10, [⟨10, 50000, "afl", "libpng", []⟩])] ("afl", "libpng") ∧
    find_unique_finished_candidate_by_fb
      [(9, [⟨9, 40000, "afl", "libpng", []⟩]),
       (10, [⟨10, 50000, "afl", "libpng", []⟩])] 86400 ("afl", "libpng") true
      = .ok (10, [⟨10, 50000, "afl", "libpng", []⟩]) :=
  ⟨by decide, by decide,
   (claim_C2_selector_incomplete
      [(9, [⟨9, 40000, "afl", "libpng", []⟩]),
       (10, [⟨10, 50000, "afl", "libpng", []⟩])] 86400 ("afl", "libpng")
      (by decide)).2.1 (10, [⟨10, 50000, "afl", "libpng", []⟩]) (by decide)
      (by decide)⟩

/-! ### Claim C9: majority-vote identity -/

theorem countVal_eq_zero_of_not_mem (l : List String) (w : String)
    (h : w ∉ l) : countVal l w = 0 := by
  simp only [countVal, List.length_eq_zero]
  rw [List.filter_eq_nil]
  intro a ha haw
  simp only [decide_eq_true_eq] at haw
  exact h (haw ▸ ha)

theorem mode_fold_spec (vs : List String) :
    ∀ (l : List String) (b : String),
      ∃ c, (l.foldl (modeStep vs) (some b)) = some c ∧ (c = b ∨ c ∈ l) ∧
        countVal vs b ≤ countVal vs c ∧
        ∀ v ∈ l, countVal vs v ≤ countVal vs c := by
  intro l
  induction l with
  | nil => intro b; exact ⟨b, rfl, Or.inl rfl, le_refl _, by simp⟩
  | cons v rest ih =>
      intro b
      simp only [List.foldl_cons, modeStep]
      by_cases h : countVal vs b < countVal vs v
      · rw [if_pos h]
        obtain ⟨c, hc, hmem, hvc, hall⟩ := ih v
        refine ⟨c, hc, ?_, le_trans (le_of_lt h) hvc, ?_⟩
        · rcases hmem with rfl | hm
          · exact Or.inr (by simp)
          · exact Or.inr (List.mem_cons_of_mem _ hm)
        · intro u hu
          rcases List.mem_cons.mp hu with rfl | hu'
          · exact hvc
          · exact hall u hu'
      · rw [if_neg h]
        obtain ⟨c, hc, hmem, hbc, hall⟩ := ih b
        refine ⟨c, hc, ?_, hbc, ?_⟩
        · rcases hmem with rfl | hm
          · exact Or.inl rfl
          · exact Or.inr (List.mem_cons_of_mem _ hm)
        · intro u hu
          rcases List.mem_cons.mp hu with rfl | hu'
          · exact le_trans (le_of_not_lt h) hbc
          · exact hall u hu'

theorem mode_spec (values : List String) :
    (values.filter nonEmptyStr = [] → _mode values = "") ∧
    (values.filter nonEmptyStr ≠ [] →
      _mode values ∈ values.filter nonEmptyStr ∧
      ∀ w, countVal (values.filter nonEmptyStr) w ≤
        countVal (values.filter nonEmptyStr) (_mode values)) := by
  constructor
  · intro h
    simp [_mode, h]
  · intro hne
    obtain ⟨v, rest, hvr⟩ : ∃ v rest,
        values.filter nonEmptyStr = v :: rest := by
      cases hc : values.filter nonEmptyStr with
      | nil => exact absurd hc hne
      | cons v r => exact ⟨v, r, rfl⟩
    simp only [_mode, hvr, List.foldl_cons, modeStep]
    obtain ⟨c, hc, hmem, hvc, hall⟩ := mode_fold_spec (v :: rest) rest v
    rw [hc, Option.getD_some]
    have hcmem : c ∈ v :: rest := by
      rcases hmem with rfl | hm
      · simp
      · exact List.mem_cons_of_mem _ hm
    refine ⟨hcmem, ?_⟩
    intro w
    by_cases hw : w ∈ v :: rest
    · rcases List.mem_cons.mp hw with rfl | hw'
      · exact hvc
      · exact hall w hw'
    · rw [countVal_eq_zero_of_not_mem _ _ hw]
      exact Nat.zero_le _

theorem countVal_filter_ne (values : List String) (w : String) (hw : w ≠ "") :
    countVal (values.filter nonEmptyStr) w = countVal values w := by
  simp only [countVal, List.filter_filter]
  congr 1
  apply List.filter_congr
  intro x hx
  by_cases hxw : x = w
  · subst hxw
    simp [hw, nonEmptyStr]
  · simp [hxw]

theorem mode_column_spec (values : List String) :
    ((∀ v ∈ values, v = "") → _mode values = "") ∧
    (∀ v0 ∈ values, v0 ≠ "" →
      _mode values ≠ "" ∧ _mode values ∈ values ∧
      ∀ w, w ≠ "" → countVal values w ≤ countVal values (_mode values)) := by
  constructor
  · intro h
    refine (mode_spec values).1 ?_
    rw [List.filter_eq_nil]
    intro a ha
    simpa [nonEmptyStr] using h a ha
  · intro v0 hv0 hv0ne
    have hne : values.filter nonEmptyStr ≠ [] := by
      intro h
      have := List.filter_eq_nil.mp h v0 hv0
      simp [hv0ne, nonEmptyStr] at this
    obtain ⟨hmem, hmax⟩ := (mode_spec values).2 hne
    have hmode := List.mem_filter.mp hmem
    have hmodene : _mode values ≠ "" := by
      simpa [nonEmptyStr] using hmode.2
    refine ⟨hmodene, hmode.1, ?_⟩
    intro w hw
    rw [← countVal_filter_ne values w hw, ← countVal_filter_ne values _ hmodene]
    exact hmax w

/-- C9: for every non-empty list of trial rows, the identity function
returns, for each of the fuzzer and benchmark columns, a non-empty value of
that column of maximal occurrence count among non-empty values (the most
frequent one), and the empty string when that column is empty in every
row. -/
theorem claim_C9_identity_majority (trial_rows : List Row)
    (hne : trial_rows ≠ []) :
    (((∀ r ∈ trial_rows, r.fuzzer = "") →
        (fuzzer_bench_for_trial trial_rows).1 = "") ∧
     (∀ r0 ∈ trial_rows, r0.fuzzer ≠ "" →
        (fuzzer_bench_for_trial trial_rows).1 ≠ "" ∧
        (∃ r ∈ trial_rows, r.fuzzer = (fuzzer_bench_for_trial trial_rows).1) ∧
        ∀ w, w ≠ "" →
          countVal (trial_rows.map Row.fuzzer) w ≤
          countVal (trial_rows.map Row.fuzzer)
            (fuzzer_bench_for_trial trial_rows).1)) ∧
    (((∀ r ∈ trial_rows, r.benchmark = "") →
        (fuzzer_bench_for_trial trial_rows).2 = "") ∧
     (∀ r0 ∈ trial_rows, r0.benchmark ≠ "" →
        (fuzzer_bench_for_trial trial_rows).2 ≠ "" ∧
        (∃ r ∈ trial_rows, r.benchmark = (fuzzer_bench_for_trial trial_rows).2) ∧
        ∀ w, w ≠ "" →
          countVal (trial_rows.map Row.benchmark) w ≤
          countVal (trial_rows.map Row.benchmark)
            (fuzzer_bench_for_trial trial_rows).2)) := by
  constructor
  · constructor
    · intro h
      exact (mode_column_spec (trial_rows.map Row.fuzzer)).1
        (fun v hv => by obtain ⟨r, hr, rfl⟩ := List.mem_map.mp hv; exact h r hr)
    · intro r0 hr0 hr0ne
      obtain ⟨h1, h2, h3⟩ := (mode_column_spec (trial_rows.map Row.fuzzer)).2
        r0.fuzzer (List.mem_map.mpr ⟨r0, hr0, rfl⟩) hr0ne
      exact ⟨h1, by simpa using List.mem_map.mp h2, h3⟩
  · constructor
    · intro h
      exact (mode_column_spec (trial_rows.map Row.benchmark)).1
        (fun v hv => by obtain ⟨r, hr, rfl⟩ := List.mem_map.mp hv; exact h r hr)
    · intro r0 hr0 hr0ne
      obtain ⟨h1, h2, h3⟩ := (mode_column_spec (trial_rows.map Row.benchmark)).2
        r0.benchmark (List.mem_map.mpr ⟨r0, hr0, rfl⟩) hr0ne
      exact ⟨h1, by simpa using List.mem_map.mp h2, h3⟩

/-- Witness for C9 at a concrete trial: fuzzer column majority `afl` among
nonempty values, benchmark column all empty. -/
theorem claim_C9_identity_majority_witness :
    ([⟨3, 1, "afl", "", []⟩, ⟨3, 2, "", "", []⟩, ⟨3, 3, "afl", "", []⟩,
      ⟨3, 4, "aflpp", "", []⟩] : List Row) ≠ [] ∧
    ((∀ r ∈ ([⟨3, 1, "afl", "", []⟩, ⟨3, 2, "", "", []⟩, ⟨3, 3, "afl", "", []⟩,
        ⟨3, 4, "aflpp", "", []⟩] : List Row), r.benchmark = "") →
      (fuzzer_bench_for_trial [⟨3, 1, "afl", "", []⟩, ⟨3, 2, "", "", []⟩,
        ⟨3, 3, "afl", "", []⟩, ⟨3, 4, "aflpp", "", []⟩]).2 = "") :=
  ⟨by decide,
   (claim_C9_identity_majority _ (by decide)).2.1⟩

/-! ### Output dataset shape -/

theorem flatMap_congr_fn (l : List α) (f g : α → List β)
    (h : ∀ x ∈ l, f x = g x) : l.flatMap f = l.flatMap g := by
  induction l with
  | nil => rfl
  | cons x rest ih =>
      rw [List.flatMap_cons, List.flatMap_cons, h x (by simp),
        ih (fun y hy => h y (List.mem_cons_of_mem _ hy))]

theorem substitute_trials_rows_eq (un_rows sub_rows : List Row) (tt : Int)
    (ai : Bool) (nr : List Row) (tids : List Int) (plan : List PlanEntry)
    (h : substitute_trials un_rows sub_rows tt ai = .ok (nr, tids, plan)) :
    nr = un_rows.filter (fun r => ¬ (r.trial_id ∈ tids))
      ++ plan.flatMap (fun e =>
           (findTrialRows (group_by_trial sub_rows) e.2.2.2).map
             (fun r => { r with trial_id := e.1 })) := by
  obtain ⟨h1, h2, hall, h4⟩ := substitute_trials_ok_eq _ _ _ _ _ _ _ h
  rw [h4]
  congr 1
  · apply List.filter_congr
    intro r hr
    simp
  · rw [h2, List.flatMap_map, List.flatMap_map]
    apply flatMap_congr_fn
    intro x hx
    have hrows := chosenFor_rows (group_by_trial sub_rows) tt ai x
      (group_by_trial_keys_nodup sub_rows) (hall x hx)
    show (chosenFor (group_by_trial sub_rows) tt ai x).2.map
        (fun r => { r with trial_id := x.1 }) =
      (findTrialRows (group_by_trial sub_rows)
        (chosenFor (group_by_trial sub_rows) tt ai x).1).map
        (fun r => { r with trial_id := x.1 })
    rw [hrows]

theorem filter_flatMap_renumber_not_mem (s : List (Int × List Row))
    (plan : List PlanEntry) (t : Int) (ht : t ∉ plan.map (fun e => e.1)) :
    ((plan.flatMap (fun e => (findTrialRows s e.2.2.2).map
        (fun r => { r with trial_id := e.1 }))).filter
      (fun r => r.trial_id = t)) = [] := by
  rw [List.filter_eq_nil]
  intro r hr
  obtain ⟨e, he, hre⟩ := List.mem_flatMap.mp hr
  obtain ⟨r0, _, rfl⟩ := List.mem_map.mp hre
  simp only [decide_eq_true_eq]
  intro hid
  have hid' : e.1 = t := hid
  exact ht (hid' ▸ List.mem_map.mpr ⟨e, he, rfl⟩)

theorem filter_flatMap_renumber_mem (s : List (Int × List Row)) :
    ∀ (plan : List PlanEntry) (e : PlanEntry), e ∈ plan →
      ((plan.map (fun e => e.1)).Nodup) →
      ((plan.flatMap (fun e' => (findTrialRows s e'.2.2.2).map
          (fun r => { r with trial_id := e'.1 }))).filter
        (fun r => r.trial_id = e.1)) =
      (findTrialRows s e.2.2.2).map (fun r => { r with trial_id := e.1 }) := by
  intro plan
  induction plan with
  | nil => intro e he; cases he
  | cons q rest ih =>
      intro e he hnod
      rw [List.flatMap_cons, List.filter_append]
      simp only [List.map_cons, List.nodup_cons] at hnod
      rcases List.mem_cons.mp he with rfl | he'
      · have h1 : ((findTrialRows s e.2.2.2).map
            (fun r => { r with trial_id := e.1 })).filter
              (fun r => r.trial_id = e.1) =
            (findTrialRows s e.2.2.2).map (fun r => { r with trial_id := e.1 }) := by
          rw [List.filter_eq_self]
          intro a ha
          obtain ⟨r0, _, rfl⟩ := List.mem_map.mp ha
          simp
        rw [h1, filter_flatMap_renumber_not_mem s rest e.1 hnod.1,
          List.append_nil]
      · have hq : ¬ (q.1 = e.1) := by
          intro hqe
          exact hnod.1 (hqe ▸ List.mem_map.mpr ⟨e, he', rfl⟩)
        have h1 : ((findTrialRows s q.2.2.2).map
            (fun r => { r with trial_id := q.1 })).filter
              (fun r => r.trial_id = e.1) = [] := by
          rw [List.filter_eq_nil]
          intro a ha
          obtain ⟨r0, _, rfl⟩ := List.mem_map.mp ha
          simp only [decide_eq_true_eq]
          exact fun hh => hq hh
        rw [h1, ih e he' hnod.2, List.nil_append]

theorem filter_keep_not_unfinished (un : List Row) (tids : List Int) (t : Int)
    (ht : t ∉ tids) :
    ((un.filter (fun r => ¬ (r.trial_id ∈ tids))).filter
      (fun r => r.trial_id = t)) = un.filter (fun r => r.trial_id = t) := by
  rw [List.filter_filter]
  apply List.filter_congr
  intro r hr
  by_cases h : r.trial_id = t
  · simp [h, ht]
  · simp [h]

theorem filter_keep_unfinished (un : List Row) (tids : List Int) (d : Int)
    (hd : d ∈ tids) :
    ((un.filter (fun r => ¬ (r.trial_id ∈ tids))).filter
      (fun r => r.trial_id = d)) = [] := by
  rw [List.filter_filter, List.filter_eq_nil]
  intro r hr
  by_cases h : r.trial_id = d
  · simp [h, hd]
  · simp [h]

/-! ### Claims C3, C4, C8, C10: planner and output dataset -/

/-- C3: on every successful substitution the rewritten primary dataset is
exactly the rows of the unfinished dataset whose trial id is not in the
unfinished set, unchanged and in order, followed by, for each plan entry,
every row of the chosen source trial with only `trial_id` overwritten to the
destination id; the destination trials' original rows are all dropped. -/
theorem claim_C3_output_dataset (un_rows sub_rows : List Row) (tt : Int)
    (ai : Bool) (nr : List Row) (tids : List Int) (plan : List PlanEntry)
    (h : substitute_trials un_rows sub_rows tt ai = .ok (nr, tids, plan)) :
    nr = un_rows.filter (fun r => ¬ (r.trial_id ∈ tids))
      ++ plan.flatMap (fun e =>
           (findTrialRows (group_by_trial sub_rows) e.2.2.2).map
             (fun r => { r with trial_id := e.1 })) :=
  substitute_trials_rows_eq un_rows sub_rows tt ai nr tids plan h

/-- Witness for C3 at the spec's Scenario 1: unfinished trial 3 replaced by
finished trial 9's rows renumbered to 3. -/
theorem claim_C3_output_dataset_witness :
    substitute_trials [⟨3, 5000, "afl", "libpng", []⟩]
      [⟨9, 90000, "afl", "libpng", []⟩] 86400 false
      = .ok ([⟨3, 90000, "afl", "libpng", []⟩], [3], [(3, "afl", "libpng", 9)]) ∧
    ([⟨3, 90000, "afl", "libpng", []⟩] : List Row) =
      [⟨3, 5000, "afl", "libpng", []⟩].filter
        (fun r => ¬ (r.trial_id ∈ ([3] : List Int)))
      ++ [((3 : Int), "afl", "libpng", (9 : Int))].flatMap (fun e =>
           (findTrialRows (group_by_trial [⟨9, 90000, "afl", "libpng", []⟩])
             e.2.2.2).map (fun r => { r with trial_id := e.1 })) :=
  ⟨rfl,
   claim_C3_output_dataset [⟨3, 5000, "afl", "libpng", []⟩]
     [⟨9, 90000, "afl", "libpng", []⟩] 86400 false
     [⟨3, 90000, "afl", "libpng", []⟩] [3] [(3, "afl", "libpng", 9)] rfl⟩

/-- C4: after every successful substitution, the destinations of the plan
are exactly the unfinished trial ids; a finished trial id keeps exactly its
original rows, and each plan destination's rows are exactly the chosen
source trial's rows renumbered to it — so the output has one logical trial
per original destination id and no unfinished trial's row survives.  (Trial
ids are unique per trial by construction of the grouping.) -/
theorem claim_C4_one_trial_per_dest (un_rows sub_rows : List Row) (tt : Int)
    (ai : Bool) (nr : List Row) (tids : List Int) (plan : List PlanEntry)
    (h : substitute_trials un_rows sub_rows tt ai = .ok (nr, tids, plan)) :
    tids = (list_unfinished_trials un_rows tt).map (fun x => x.1) ∧
    plan.map (fun e => e.1) = tids ∧
    (∀ t : Int, t ∉ tids →
      nr.filter (fun r => r.trial_id = t)
        = un_rows.filter (fun r => r.trial_id = t)) ∧
    (∀ e ∈ plan,
      nr.filter (fun r => r.trial_id = e.1)
        = (findTrialRows (group_by_trial sub_rows) e.2.2.2).map
            (fun r => { r with trial_id := e.1 })) := by
  obtain ⟨h1, h2, hall, h4⟩ := substitute_trials_ok_eq _ _ _ _ _ _ _ h
  have hplan_fst : plan.map (fun e => e.1) = tids := by
    rw [h2, h1, List.map_map]
    rfl
  have hnod : (plan.map (fun e => e.1)).Nodup := by
    rw [hplan_fst, h1]
    exact list_unfinished_tids_nodup un_rows tt
  have hrows := substitute_trials_rows_eq un_rows sub_rows tt ai nr tids plan h
  refine ⟨h1, hplan_fst, ?_, ?_⟩
  · intro t ht
    rw [hrows, List.filter_append, filter_keep_not_unfinished un_rows tids t ht,
      filter_flatMap_renumber_not_mem _ plan t (hplan_fst ▸ ht), List.append_nil]
  · intro e he
    have hd : e.1 ∈ tids := hplan_fst ▸ List.mem_map.mpr ⟨e, he, rfl⟩
    rw [hrows, List.filter_append, filter_keep_unfinished un_rows tids e.1 hd,
      filter_flatMap_renumber_mem _ plan e he hnod, List.nil_append]

/-- Witness for C4 at the spec's Scenario 1: the output's rows with trial id
3 are exactly trial 9's rows renumbered. -/
theorem claim_C4_one_trial_per_dest_witness :
    substitute_trials [⟨3, 5000, "afl", "libpng", []⟩]
      [⟨9, 90000, "afl", "libpng", []⟩] 86400 false
      = .ok ([⟨3, 90000, "afl", "libpng", []⟩], [3], [(3, "afl", "libpng", 9)]) ∧
    ([⟨3, 90000, "afl", "libpng", []⟩] : List Row).filter
        (fun r => r.trial_id = 3)
      = (findTrialRows (group_by_trial [⟨9, 90000, "afl", "libpng", []⟩]) 9).map
          (fun r => { r with trial_id := 3 }) :=
  ⟨rfl,
   (claim_C4_one_trial_per_dest [⟨3, 5000, "afl", "libpng", []⟩]
      [⟨9, 90000, "afl", "libpng", []⟩] 86400 false
      [⟨3, 90000, "afl", "libpng", []⟩] [3] [(3, "afl", "libpng", 9)]
      rfl).2.2.2 (3, "afl", "libpng", 9) (by decide)⟩

/-- C8: `list_unfinished` is sorted ascending by trial id, lists each trial
id at most once, contains exactly the trials whose max time is strictly
below the threshold, and consequently a trial with max time at or above the
threshold never appears as a plan destination. -/
theorem claim_C8_list_unfinished (un_rows : List Row) (tt : Int) :
    ((list_unfinished_trials un_rows tt).Pairwise (fun a b => a.1 ≤ b.1)) ∧
    (((list_unfinished_trials un_rows tt).map (fun x => x.1)).Nodup) ∧
    (∀ x, x ∈ list_unfinished_trials un_rows tt ↔
      ∃ p ∈ group_by_trial un_rows, max_time_for_trial p.2 < tt ∧
        x = (p.1, (fuzzer_bench_for_trial p.2).1,
             (fuzzer_bench_for_trial p.2).2, max_time_for_trial p.2)) ∧
    (∀ (sub_rows : List Row) (ai : Bool) (nr : List Row) (tids : List Int)
       (plan : List PlanEntry),
      substitute_trials un_rows sub_rows tt ai = .ok (nr, tids, plan) →
      ∀ e ∈ plan,
        max_time_for_trial (findTrialRows (group_by_trial un_rows) e.1) < tt) := by
  refine ⟨list_unfinished_sorted un_rows tt, list_unfinished_tids_nodup un_rows tt,
    mem_list_unfinished un_rows tt, ?_⟩
  intro sub_rows ai nr tids plan h e he
  obtain ⟨h1, h2, hall, h4⟩ := substitute_trials_ok_eq _ _ _ _ _ _ _ h
  rw [h2] at he
  obtain ⟨x, hx, rfl⟩ := List.mem_map.mp he
  obtain ⟨p, hp, hlt, hxe⟩ := (mem_list_unfinished un_rows tt x).mp hx
  subst hxe
  have hfind : findTrialRows (group_by_trial un_rows) p.1 = p.2 := by
    have := assocFind_of_mem (group_by_trial un_rows)
      (group_by_trial_keys_nodup un_rows) p hp
    simp [findTrialRows, this]
  show max_time_for_trial (findTrialRows (group_by_trial un_rows) p.1) < tt
  rw [hfind]
  exact hlt

/-- Witness for C8's plan-destination consequence at Scenario 1: destination
3's trial in the unfinished dataset is indeed below the threshold. -/
theorem claim_C8_list_unfinished_witness :
    substitute_trials [⟨3, 5000, "afl", "libpng", []⟩]
      [⟨9, 90000, "afl", "libpng", []⟩] 86400 false
      = .ok ([⟨3, 90000, "afl", "libpng", []⟩], [3], [(3, "afl", "libpng", 9)]) ∧
    max_time_for_trial
      (findTrialRows (group_by_trial [⟨3, 5000, "afl", "libpng", []⟩]) 3)
      < 86400 :=
  ⟨rfl,
   (claim_C8_list_unfinished [⟨3, 5000, "afl", "libpng", []⟩] 86400).2.2.2
     [⟨9, 90000, "afl", "libpng", []⟩] false [⟨3, 90000, "afl", "libpng", []⟩]
     [3] [(3, "afl", "libpng", 9)] rfl (3, "afl", "libpng", 9)
     (by decide)⟩

/-- C10: the planner never reserves a substitute: every plan entry's source
is the selector's deterministic answer for its identity, so two plan entries
with the same (fuzzer, benchmark) receive the same source trial id, and
source ids in a plan need not be distinct. -/
theorem claim_C10_no_reservation (un_rows sub_rows : List Row) (tt : Int)
    (ai : Bool) (nr : List Row) (tids : List Int) (plan : List PlanEntry)
    (h : substitute_trials un_rows sub_rows tt ai = .ok (nr, tids, plan)) :
    (∀ e ∈ plan,
      find_unique_finished_candidate_by_fb (group_by_trial sub_rows) tt
        (e.2.1, e.2.2.1) ai
        = .ok (e.2.2.2, findTrialRows (group_by_trial sub_rows) e.2.2.2)) ∧
    (∀ e1 ∈ plan, ∀ e2 ∈ plan,
      e1.2.1 = e2.2.1 → e1.2.2.1 = e2.2.2.1 → e1.2.2.2 = e2.2.2.2) := by
  obtain ⟨h1, h2, hall, h4⟩ := substitute_trials_ok_eq _ _ _ _ _ _ _ h
  have hsel : ∀ e ∈ plan,
      find_unique_finished_candidate_by_fb (group_by_trial sub_rows) tt
        (e.2.1, e.2.2.1) ai
        = .ok (e.2.2.2, findTrialRows (group_by_trial sub_rows) e.2.2.2) := by
    intro e he
    rw [h2] at he
    obtain ⟨x, hx, rfl⟩ := List.mem_map.mp he
    have hok := hall x hx
    have hrows := chosenFor_rows (group_by_trial sub_rows) tt ai x
      (group_by_trial_keys_nodup sub_rows) hok
    show find_unique_finished_candidate_by_fb (group_by_trial sub_rows) tt
        (x.2.1, x.2.2.1) ai
      = .ok ((chosenFor (group_by_trial sub_rows) tt ai x).1,
             findTrialRows (group_by_trial sub_rows)
               (chosenFor (group_by_trial sub_rows) tt ai x).1)
    rw [← hrows, hok]
  refine ⟨hsel, ?_⟩
  intro e1 he1 e2 he2 hf hb
  have hsel1 := hsel e1 he1
  have hsel2 := hsel e2 he2
  rw [hf, hb] at hsel1
  rw [hsel1] at hsel2
  simp only [Except.ok.injEq, Prod.mk.injEq] at hsel2
  exact hsel2.1

/-- Witness for C10: two unfinished trials with the same identity both
receive trial 9 as their source. -/
theorem claim_C10_no_reservation_witness :
    substitute_trials
      [⟨3, 5000, "afl", "libpng", []⟩, ⟨4, 6000, "afl", "libpng", []⟩]
      [⟨9, 90000, "afl", "libpng", []⟩] 86400 false
      = .ok ([⟨3, 90000, "afl", "libpng", []⟩, ⟨4, 90000, "afl", "libpng", []⟩],
             [3, 4], [(3, "afl", "libpng", 9), (4, "afl", "libpng", 9)]) ∧
    ((3 : Int), "afl", "libpng", (9 : Int)).2.2.2
      = ((4 : Int), "afl", "libpng", (9 : Int)).2.2.2 :=
  ⟨rfl,
   (claim_C10_no_reservation
      [⟨3, 5000, "afl", "libpng", []⟩, ⟨4, 6000, "afl", "libpng", []⟩]
      [⟨9, 90000, "afl", "libpng", []⟩] 86400 false
      [⟨3, 90000, "afl", "libpng", []⟩, ⟨4, 90000, "afl", "libpng", []⟩]
      [3, 4] [(3, "afl", "libpng", 9), (4, "afl", "libpng", 9)]
      rfl).2 (3, "afl", "libpng", 9) (by decide)
      (4, "afl", "libpng", 9) (by decide) rfl rfl⟩

/-! ### Claim C7: recomputed throughput statistics -/

/-- C7: the mean and (squared) sample standard deviation written for a
throughput record are recomputed from the current per-trial values only,
excluding not-a-number entries: the standard deviation is 0 when fewer than
two numeric values exist, the mean is not-a-number when zero numeric values
exist, and both are determined by the numeric values alone. -/
theorem claim_C7_recomputed_stats (bench fuzz : String)
    (tmap tmap' : SpeedMap) :
    (write_speeds_row bench fuzz tmap).2.2.1 = written_mean tmap ∧
    (write_speeds_row bench fuzz tmap).2.2.2.1 = written_stdev_sq tmap ∧
    (numeric_vals tmap = [] → written_mean tmap = .nan) ∧
    (numeric_vals tmap ≠ [] →
      written_mean tmap = .num (meanQ (numeric_vals tmap))) ∧
    ((numeric_vals tmap).length < 2 → written_stdev_sq tmap = 0) ∧
    (numeric_vals tmap = numeric_vals tmap' →
      written_mean tmap = written_mean tmap' ∧
      written_stdev_sq tmap = written_stdev_sq tmap') := by
  refine ⟨rfl, rfl, ?_, ?_, ?_, ?_⟩
  · intro h
    simp [written_mean, h]
  · intro h
    simp [written_mean, h]
  · intro h
    simp only [written_stdev_sq]
    rw [if_neg (by omega)]
  · intro h
    exact ⟨by simp [written_mean, h], by simp [written_stdev_sq, h]⟩

/-- Witness for C7: a record whose only trial value is not-a-number has zero
numeric values, and its written mean is not-a-number. -/
theorem claim_C7_recomputed_stats_witness :
    numeric_vals [((3 : Int), (RVal.nan, some (5 : ℚ)))] = [] ∧
    written_mean [((3 : Int), (RVal.nan, some (5 : ℚ)))] = .nan :=
  ⟨by decide,
   (claim_C7_recomputed_stats "zlib" "aflfast"
      [((3 : Int), (RVal.nan, some (5 : ℚ)))] []).2.2.1 (by decide)⟩

/-! ### Claim C6: throughput parsing -/

/-- C6 counterexample: a throughput row whose `trials` field is empty — and
so certainly lacks the `:` separator — does not make parsing fail with a
FormatError: the row is silently skipped and parsing succeeds. -/
theorem claim_C6_counterexample :
    read_speeds_csv ⟨true, [⟨"zlib", "aflfast", "", ""⟩]⟩ = .ok [] ∧
    read_speeds_csv ⟨true, [⟨"zlib", "aflfast", "", ""⟩]⟩
      ≠ .error .formatError :=
  ⟨rfl, fun h => by
    rw [show read_speeds_csv ⟨true, [⟨"zlib", "aflfast", "", ""⟩]⟩
        = (.ok [] : Except SpeedError SpeedResults) from rfl] at h
    exact Except.noConfusion h⟩

/-- C6 (amended): a row whose stripped `trials` field is empty is skipped
(the field is not enforced as mandatory); parsing fails with a fatal
FormatError whenever a row's stripped `trials` field is nonempty and lacks
the `:` separator; and a `trial_times` entry referencing a trial id absent
from the record is inserted with not-a-number speed and the given time,
never dropped. -/
theorem claim_C6_trials_format (file : SpeedFile) :
    (∀ (has_times : Bool) (res : SpeedResults) (row : SpeedRow),
      trimChars row.trials.data = [] →
      processSpeedRow has_times res row = .ok res) ∧
    (∀ (pre post : List SpeedRow) (row : SpeedRow) (acc : SpeedResults),
      file.rows = pre ++ row :: post →
      pre.foldlM (processSpeedRow file.has_times) ([] : SpeedResults)
        = .ok acc →
      trimChars row.trials.data ≠ [] →
      ¬ ((trimChars row.trials.data).any (fun c => c = ':')) = true →
      read_speeds_csv file = .error .formatError) ∧
    (∀ (key : String × String) (res : SpeedResults) (tts : List Char)
       (item tid_s t_s : List Char) (tid : Int) (t : ℚ),
      tokensOf tts = [item] →
      splitFirst ':' item = some (tid_s, t_s) →
      parseInt tid_s = some tid →
      parseFloat t_s = some t →
      assocFind ((assocFind res key).getD []) tid = none →
      parseTimesField key tts res
        = .ok (assocSet res key
            (assocSet ((assocFind res key).getD []) tid (RVal.nan, some t)))) := by
  refine ⟨?_, ?_, ?_⟩
  · intro has_times res row hempty
    simp [processSpeedRow, hempty]
  · intro pre post row acc hrows hpre hne hnc
    have hrow : processSpeedRow file.has_times acc row = .error .formatError := by
      simp [processSpeedRow, hne, hnc]
    rw [read_speeds_csv, hrows, List.foldlM_append, hpre]
    show (Except.ok acc >>= fun b => List.foldlM _ b (row :: post))
      = .error .formatError
    rw [show ∀ (g : SpeedResults → Except SpeedError SpeedResults),
        (Except.ok acc >>= g) = g acc from fun g => rfl]
    rw [List.foldlM_cons, hrow]
    rfl
  · intro key res tts item tid_s t_s tid t htok hsplit htid ht habs
    simp [parseTimesField, htok, List.foldlM_cons, List.foldlM_nil,
      hsplit, htid, ht, habs]

/-- Witness for the amended C6: a blank row is skipped, a colon-free nonempty
`trials` field is a FormatError, and an unmatched `trial_times` entry is
inserted with not-a-number speed. -/
theorem claim_C6_trials_format_witness :
    trimChars ("  ".data) = [] ∧
    processSpeedRow true [] ⟨"b", "f", "  ", ""⟩ = .ok [] ∧
    read_speeds_csv ⟨false, [⟨"zlib", "aflfast", "120", ""⟩]⟩
      = .error .formatError ∧
    parseTimesField ("zlib", "aflfast") ("4:100".data) []
      = .ok (assocSet [] ("zlib", "aflfast")
          (assocSet [] 4 (RVal.nan, some ((100 : ℕ) : ℚ)))) :=
  ⟨by decide,
   (claim_C6_trials_format ⟨false, []⟩).1 true [] ⟨"b", "f", "  ", ""⟩
     (by decide),
   (claim_C6_trials_format ⟨false, [⟨"zlib", "aflfast", "120", ""⟩]⟩).2.1
     [] [] ⟨"zlib", "aflfast", "120", ""⟩ [] rfl rfl (by decide) (by decide),
   (claim_C6_trials_format ⟨false, []⟩).2.2 ("zlib", "aflfast") []
     ("4:100".data) ("4:100".data) ("4".data) ("100".data) 4 ((100 : ℕ) : ℚ)
     rfl rfl rfl rfl rfl⟩

/-! ### Claim C5: failure semantics of a whole run -/

/-- C5 counterexample: a run whose optional unfinished-throughput file fails
to parse (its `trials` field lacks trial ids) terminates with a fatal error,
yet the primary data CSV has already been written — so an output file exists
on this failure, contradicting the claim that no output file exists on any
parse failure. -/
theorem claim_C5_counterexample :
    main_run [] [] 86400 false
      (some (⟨false, [⟨"zlib", "aflfast", "120", ""⟩]⟩, ⟨false, []⟩))
      = ([.primaryData], some (.throughputError .formatError)) ∧
    ([OutFile.primaryData] : List OutFile) ≠ [] :=
  ⟨rfl, by simp⟩

/-- C5 (amended): a parse or lookup failure during planning aborts before
any output is written; a failure while reading or projecting the throughput
datasets aborts before the throughput output is written, but occurs after
the primary data CSV has already been written; the throughput output never
exists after a failed run. -/
theorem claim_C5_failure_semantics (un_rows sub_rows : List Row) (tt : Int)
    (ai : Bool) (speeds : Option (SpeedFile × SpeedFile)) :
    (∀ e, (main_run un_rows sub_rows tt ai speeds).2 = some (.planningError e) →
      (main_run un_rows sub_rows tt ai speeds).1 = []) ∧
    (∀ e, (main_run un_rows sub_rows tt ai speeds).2
        = some (.throughputError e) →
      (main_run un_rows sub_rows tt ai speeds).1 = [.primaryData]) ∧
    ((main_run un_rows sub_rows tt ai speeds).2 ≠ none →
      OutFile.throughput ∉ (main_run un_rows sub_rows tt ai speeds).1) := by
  unfold main_run
  split
  · simp
  · split
    · simp
    · split
      · simp
      · split
        · simp
        · split
          · simp
          · simp

/-- Witness for the amended C5: at the counterexample input the run fails in
the throughput phase and exactly the primary data CSV was written. -/
theorem claim_C5_failure_semantics_witness :
    (main_run [] [] 86400 false
      (some (⟨false, [⟨"zlib", "aflfast", "120", ""⟩]⟩, ⟨false, []⟩))).2
      = some (.throughputError .formatError) ∧
    (main_run [] [] 86400 false
      (some (⟨false, [⟨"zlib", "aflfast", "120", ""⟩]⟩, ⟨false, []⟩))).1
      = [.primaryData] :=
  ⟨rfl,
   (claim_C5_failure_semantics [] [] 86400 false
      (some (⟨false, [⟨"zlib", "aflfast", "120", ""⟩]⟩, ⟨false, []⟩))).2.1
     .formatError rfl⟩
